import Mathlib

/-!
Verification of the TRPG writing-workshop dice engine (`dice.js`).

The engine is shallowly embedded: strings are `List Char`, the JS number
type is modelled by exact `ℤ`/`ℕ` (the engine only manipulates integers,
and all quantities relevant to the verified properties stay far below
2^53, where JS doubles are exact), and the global pseudo-random source
`Math.random` is modelled as an explicit stream `rng : ℕ → ℚ` of draws,
the `i`-th call returning `rng i`; a valid stream yields values in
`[0, 1)`.  Fallible operations return `Except DiceError _`.

Character case mapping (`toLowerCase`/`toUpperCase`) is modelled by the
ASCII maps `Char.toLower`/`Char.toUpper`, which agree with JavaScript on
the ASCII range actually exercised by the dice grammar.
-/

deriving instance DecidableEq for Except

namespace Dice

/-- JS `\s` / `trim` whitespace test (ASCII fragment). -/
def isWsB (c : Char) : Bool := c.isWhitespace

/-- JS `String.prototype.trim`: drop whitespace at both ends. -/
def jsTrim (l : List Char) : List Char :=
  (((l.dropWhile isWsB).reverse.dropWhile isWsB)).reverse

/-- JS `toLowerCase` on the ASCII range. -/
def jsToLower (l : List Char) : List Char := l.map Char.toLower

/-- JS `toUpperCase` on the ASCII range. -/
def jsToUpper (l : List Char) : List Char := l.map Char.toUpper

/-- `formula.trim().toLowerCase()` — the normalisation both entry points
perform first (dice.js line 21 and line 115). -/
def normChars (l : List Char) : List Char := jsToLower (jsTrim l)

/-- Numeric value of a (non-empty) decimal digit string, as read left to
right — the value `parseInt` assigns to a digit-only match group. -/
def digitsVal (ds : List Char) : ℕ := ds.foldl (fun a c => 10 * a + (c.toNat - 48)) 0

/-- The decimal digit character for `n < 10`. -/
def digitCharOf (n : ℕ) : Char := Char.ofNat (48 + n)

/-- Fuel-driven digit expansion; the fuel only serves to make the
recursion structural, any `fuel > n` computes the digits of `n`. -/
def natToCharsAux (fuel n : ℕ) : List Char :=
  match fuel with
  | 0 => []
  | fuel + 1 =>
    if n < 10 then [digitCharOf n]
    else natToCharsAux fuel (n / 10) ++ [digitCharOf (n % 10)]

/-- Decimal rendering of a natural number (JS template `${n}` for `n ≥ 0`). -/
def natToChars (n : ℕ) : List Char := natToCharsAux (n + 1) n

/-- Rendering of a signed integer (JS template `${n}`). -/
def intToChars (n : ℤ) : List Char :=
  if n < 0 then '-' :: natToChars (-n).toNat else natToChars n.toNat

/-- Value of a hexadecimal digit character. -/
def hexDigitVal (c : Char) : ℕ :=
  if c.isDigit then c.toNat - 48
  else if 'a' ≤ c ∧ c ≤ 'f' then c.toNat - 87
  else c.toNat - 55

/-- Hexadecimal digit test. -/
def isHexDigitC (c : Char) : Bool :=
  c.isDigit || ('a' ≤ c && c ≤ 'f') || ('A' ≤ c && c ≤ 'F')

/-- Numeric value of a (non-empty) hexadecimal digit string. -/
def hexVal (ds : List Char) : ℕ := ds.foldl (fun a c => 16 * a + hexDigitVal c) 0

/-- JS `parseInt(s)` with no radix argument: skip leading whitespace,
read an optional sign, auto-detect a `0x`/`0X` hexadecimal marker, then
read the longest digit run and ignore whatever follows; `none` models
`NaN` (no digit could be read). -/
def jsSign (l1 : List Char) : ℤ := if l1.head? = some '-' then -1 else 1

/-- The part of the input following the optional sign. -/
def jsBody (l1 : List Char) : List Char :=
  if l1.head? = some '+' ∨ l1.head? = some '-' then l1.tail else l1

def jsParseInt (l : List Char) : Option ℤ :=
  let l1 := l.dropWhile isWsB
  let sign := jsSign l1
  let l2 := jsBody l1
  if l2.head? = some '0' ∧ (l2.tail.head? = some 'x' ∨ l2.tail.head? = some 'X') then
    let hs := l2.tail.tail.takeWhile isHexDigitC
    if hs.isEmpty then none else some (sign * (hexVal hs : ℤ))
  else
    let ds := l2.takeWhile Char.isDigit
    if ds.isEmpty then none else some (sign * (digitsVal ds : ℤ))

/-- Keep-highest / keep-lowest marker (`kh` / `kl`). -/
inductive KeepMode where
  | kh
  | kl
deriving DecidableEq

/-- Structured roll request, as extracted from the regex match groups
(dice.js lines 44-50). -/
structure RollRequest where
  count : ℕ
  sides : ℕ
  keepMode : Option KeepMode
  keepCount : ℕ
  modifier : ℤ
deriving DecidableEq

/-- Result structure returned by `rollDice`. -/
structure RollOutcome where
  formula : List Char
  rolls : List ℤ
  kept : List ℤ
  modifier : ℤ
  total : ℤ
  details : List Char
deriving DecidableEq

/-- Result structure returned by the compound path of
`evaluateDiceExpression`. -/
structure CompoundResult where
  formula : List Char
  total : ℤ
  details : List Char
deriving DecidableEq

/-- The three error kinds thrown by the engine.  `formatError` carries
the thrown message (`无法解析骰子公式: ...`); the two bound errors carry
fixed messages in the source and are modelled as bare constructors. -/
inductive DiceError where
  | formatError (msg : List Char)
  | tooManyDice
  | tooManySides
deriving DecidableEq

/-- `evaluateDiceExpression` returns either a plain `RollOutcome` (fast
path) or a `CompoundResult`. -/
inductive EvalResult where
  | simple (o : RollOutcome)
  | compound (c : CompoundResult)
deriving DecidableEq

/-- The optional keep clause `(?:(kh|kl)(\d+))?` at position `r` of the
formula, regex-faithfully: a `k` that does not begin a complete
`kh<digits>` / `kl<digits>` clause cannot be matched by the rest of the
pattern either, so the whole match fails (`none`). -/
def parseKeep (r : List Char) : Option (Option (KeepMode × ℕ) × List Char) :=
  match r with
  | 'k' :: 'h' :: r4 =>
    let ks := r4.takeWhile Char.isDigit
    if ks.isEmpty then none
    else some (some (KeepMode.kh, digitsVal ks), r4.dropWhile Char.isDigit)
  | 'k' :: 'l' :: r4 =>
    let ks := r4.takeWhile Char.isDigit
    if ks.isEmpty then none
    else some (some (KeepMode.kl, digitsVal ks), r4.dropWhile Char.isDigit)
  | _ => some (none, r)

/-- The optional trailing modifier `(?:\s*([+\-])\s*(\d+))?$`: either the
input is exhausted, or whitespace, a sign, whitespace and a final digit
run must consume it completely. -/
def parseModifier (r : List Char) : Option ℤ :=
  match r with
  | [] => some 0
  | _ =>
    match r.dropWhile isWsB with
    | '+' :: r7 =>
      let r8 := r7.dropWhile isWsB
      let ds := r8.takeWhile Char.isDigit
      if ds.isEmpty ∨ ¬ (r8.dropWhile Char.isDigit).isEmpty then none
      else some (digitsVal ds : ℤ)
    | '-' :: r7 =>
      let r8 := r7.dropWhile isWsB
      let ds := r8.takeWhile Char.isDigit
      if ds.isEmpty ∨ ¬ (r8.dropWhile Char.isDigit).isEmpty then none
      else some (-(digitsVal ds : ℤ))
    | _ => none

/-- The anchored dice regex
`^(\d+)?d(\d+)(?:(kh|kl)(\d+))?(?:\s*([+\-])\s*(\d+))?$` of dice.js
lines 24-26, together with the group extraction of lines 44-50,
as a deterministic parser.  Greedy digit runs are faithful because every
follow position of a digit group requires a non-digit
(`d`, `k`, a sign, whitespace or end of input), so the regex engine
never benefits from backtracking into a digit run.  `count` defaults
to `1` when group 1 is absent, and `keepCount` defaults to `count`
when the keep clause is absent. -/
def parseDiceFormula (l : List Char) : Option RollRequest :=
  let cs := l.takeWhile Char.isDigit
  match l.dropWhile Char.isDigit with
  | 'd' :: r2 =>
    let ss := r2.takeWhile Char.isDigit
    if ss.isEmpty then none
    else
      match parseKeep (r2.dropWhile Char.isDigit) with
      | none => none
      | some (keep, rem) =>
        match parseModifier rem with
        | none => none
        | some m =>
          let count := if cs.isEmpty then 1 else digitsVal cs
          some { count := count
                 sides := digitsVal ss
                 keepMode := keep.map Prod.fst
                 keepCount := match keep with | some p => p.2 | none => count
                 modifier := m }
  | _ => none

/-- `rollDie(sides)` = `Math.floor(Math.random() * sides) + 1`, with the
random draw `r` made explicit (dice.js lines 11-13). -/
def rollDie (sides : ℕ) (r : ℚ) : ℤ := ⌊r * (sides : ℚ)⌋ + 1

/-- The `count` die rolls, the `i`-th die consuming draw `rng i`
(dice.js lines 56-59). -/
def rollsOf (req : RollRequest) (rng : ℕ → ℚ) : List ℤ :=
  (List.range req.count).map fun i => rollDie req.sides (rng i)

/-- Total preorder realised by the JS comparator together with sort
stability: the source sorts value-tagged indices `{v, i}` with the
comparator `(a, b) => b.v - a.v` (keep-highest) or `(a, b) => a.v - b.v`
(keep-lowest).  Since `Array.prototype.sort` is stable and the tagged
list carries strictly increasing indices, the sorted result is exactly
the list ordered by value (descending resp. ascending) with ties broken
by ascending original index — the unique sorted permutation under this
total order. -/
def keepLe : KeepMode → (ℤ × ℕ) → (ℤ × ℕ) → Prop
  | KeepMode.kh, a, b => b.1 < a.1 ∨ (a.1 = b.1 ∧ a.2 ≤ b.2)
  | KeepMode.kl, a, b => a.1 < b.1 ∨ (a.1 = b.1 ∧ a.2 ≤ b.2)

instance keepLe.instDecidableRel (m : KeepMode) : DecidableRel (keepLe m) :=
  match m with
  | KeepMode.kh => fun _ _ => inferInstanceAs (Decidable (_ ∨ _))
  | KeepMode.kl => fun _ _ => inferInstanceAs (Decidable (_ ∨ _))

instance keepLe.instIsTotal (m : KeepMode) : IsTotal (ℤ × ℕ) (keepLe m) where
  total a b := by cases m <;> simp only [keepLe] <;> omega

instance keepLe.instIsTrans (m : KeepMode) : IsTrans (ℤ × ℕ) (keepLe m) where
  trans a b c hab hbc := by
    cases m <;> simp only [keepLe] at * <;> omega

/-- Tie-breaking order of the claim: index `i` with value `vi` beats
index `j` with value `vj` when its value is strictly better for the
mode, or the values are equal and `i` comes first in roll order. -/
def tieBeats : KeepMode → ℤ → ℕ → ℤ → ℕ → Prop
  | KeepMode.kh, vi, i, vj, j => vj < vi ∨ (vj = vi ∧ i < j)
  | KeepMode.kl, vi, i, vj, j => vi < vj ∨ (vi = vj ∧ i < j)

/-- Optimality direction of the claim: the kept sum is maximal for
keep-highest and minimal for keep-lowest. -/
def keepCmp : KeepMode → ℤ → ℤ → Prop
  | KeepMode.kh, keptSum, otherSum => otherSum ≤ keptSum
  | KeepMode.kl, keptSum, otherSum => keptSum ≤ otherSum

/-- `[...rolls].map((v, i) => ({v, i}))` — each roll tagged with its
original index (dice.js line 64). -/
def tag (rolls : List ℤ) : List (ℤ × ℕ) :=
  rolls.enum.map fun p => (p.2, p.1)

/-- Indices kept for the `kept` array:
`sorted.slice(0, keepCount).map(x => x.i)` after the stable sort
(dice.js lines 64-70). -/
def keptIdx (m : KeepMode) (rolls : List ℤ) (k : ℕ) : List ℕ :=
  ((List.insertionSort (keepLe m) (tag rolls)).take k).map Prod.snd

/-- The independently recomputed kept-index set used when rendering
`details` (dice.js lines 78-83); the source duplicates the entire
sort-and-slice pipeline there. -/
def keptIdxDetails (m : KeepMode) (rolls : List ℤ) (k : ℕ) : List ℕ :=
  ((List.insertionSort (keepLe m) (tag rolls)).take k).map Prod.snd

/-- `rolls.filter((_, i) => keptIndices.has(i))` (dice.js line 71). -/
def keptOf (req : RollRequest) (rolls : List ℤ) : List ℤ :=
  match req.keepMode with
  | none => rolls
  | some m =>
    (rolls.enum.filter fun p => decide (p.1 ∈ keptIdx m rolls req.keepCount)).map Prod.snd

/-- `~~r~~` strikethrough decoration. -/
def strike (cs : List Char) : List Char := '~' :: '~' :: cs ++ ['~', '~']

/-- Rendering of the keep-mode letters. -/
def modeChars : KeepMode → List Char
  | KeepMode.kh => ['k', 'h']
  | KeepMode.kl => ['k', 'l']

/-- The per-die entries of the `details` trace
(`rolls.map((r, i) => ...)`, dice.js lines 84-89): when a keep mode is
active, an index outside the recomputed kept-index set is rendered
struck through. -/
def detailEntries (req : RollRequest) (rolls : List ℤ) : List (List Char) :=
  match req.keepMode with
  | none => rolls.enum.map fun p => intToChars p.2
  | some m =>
    rolls.enum.map fun p =>
      if p.1 ∈ keptIdxDetails m rolls req.keepCount then intToChars p.2
      else strike (intToChars p.2)

/-- The full `details` string (dice.js lines 84-96): bracketed
comma-separated entries, then the keep annotation when present, then the
signed modifier when nonzero. -/
def buildDetails (req : RollRequest) (rolls : List ℤ) : List Char :=
  let base := '[' :: List.intercalate (", ".data) (detailEntries req rolls) ++ [']']
  let withKeep :=
    match req.keepMode with
    | some m => base ++ ' ' :: (modeChars m ++ natToChars req.keepCount)
    | none => base
  if req.modifier = 0 then withKeep
  else
    withKeep ++ ' ' ::
      (if 0 < req.modifier then '+' :: intToChars req.modifier else intToChars req.modifier)

/-- The successful execution branch of `rollDice` (dice.js lines 55-105),
for a validated request: roll, apply the keep rule, total up and render. -/
def execRoll (formula : List Char) (req : RollRequest) (rng : ℕ → ℚ) : RollOutcome :=
  let rolls := rollsOf req rng
  let kept := keptOf req rolls
  let subtotal := kept.sum
  { formula := jsToUpper formula
    rolls := rolls
    kept := kept
    modifier := req.modifier
    total := subtotal + req.modifier
    details := buildDetails req rolls }

/-- Message head of the `FormatError` thrown at dice.js line 41. -/
def fmtErrHead : List Char := "无法解析骰子公式: ".data

/-- `rollDice(formula)` — the exported single-formula entry point
(dice.js lines 20-106): normalise, match the dice grammar; on failure
fall back to `parseInt` (degenerate integer roll, dice.js lines 28-42)
or throw `FormatError`; on success validate the bounds (lines 52-53)
and execute. -/
def rollDice (input : List Char) (rng : ℕ → ℚ) : Except DiceError RollOutcome :=
  let formula := normChars input
  match parseDiceFormula formula with
  | none =>
    match jsParseInt formula with
    | some n =>
      Except.ok { formula := formula, rolls := [n], kept := [n], modifier := 0,
                  total := n, details := intToChars n }
    | none => Except.error (DiceError.formatError (fmtErrHead ++ formula))
  | some req =>
    if req.count > 100 then Except.error DiceError.tooManyDice
    else if req.sides > 1000 then Except.error DiceError.tooManySides
    else Except.ok (execRoll formula req rng)

/-- `expression.split(/(?=[+\-])/)`: split before every `+`/`-`, keeping
the sign with the following chunk; a sign at position 0 does not open an
empty first chunk (zero-width match at the current start is skipped by
the JS split algorithm). -/
def splitSignsAux : List Char → List Char → List (List Char)
  | [], cur => [cur.reverse]
  | c :: t, cur =>
    if (c = '+' ∨ c = '-') ∧ cur ≠ [] then cur.reverse :: splitSignsAux t [c]
    else splitSignsAux t (c :: cur)

/-- See `splitSignsAux`. -/
def splitSigns (l : List Char) : List (List Char) := splitSignsAux l []

/-- `part.replace(/^\+/, '')`. -/
def stripLeadingPlus : List Char → List Char
  | '+' :: t => t
  | l => l

/-- `part.replace(/^[+\-]/, '')`. -/
def stripLeadingSign : List Char → List Char
  | '+' :: t => t
  | '-' :: t => t
  | l => l

/-- Number of `Math.random()` draws a `rollDice` call on this input
consumes: `count` draws on the successful path, none otherwise.  Used to
thread the global draw stream through consecutive sub-rolls of the
compound evaluator. -/
def drawsUsed (input : List Char) : ℕ :=
  match parseDiceFormula (normChars input) with
  | some req => if req.count > 100 ∨ req.sides > 1000 then 0 else req.count
  | none => 0

/-- The draw stream advanced past `k` already-consumed draws. -/
def shiftRng (rng : ℕ → ℚ) (k : ℕ) : ℕ → ℚ := fun i => rng (k + i)

/-- The term loop of `evaluateDiceExpression` (dice.js lines 127-146),
carrying the running total and the list of rendered trace fragments; `k`
counts the random draws consumed so far.  A term containing `d` is
rolled as a sub-formula (propagating any error); otherwise it is parsed
as an integer, and silently skipped if that fails. -/
def evalParts :
    List (List Char) → (ℕ → ℚ) → ℕ → ℤ → List (List Char) →
      Except DiceError (ℤ × List (List Char))
  | [], _, _, total, frags => Except.ok (total, frags)
  | part :: rest, rng, k, total, frags =>
    let trimmed := jsTrim part
    if 'd' ∈ trimmed then
      let cleanPart := stripLeadingPlus trimmed
      let isNegative := cleanPart.head? = some '-'
      let actualPart := stripLeadingSign cleanPart
      match rollDice actualPart (shiftRng rng k) with
      | Except.error e => Except.error e
      | Except.ok res =>
        let value := if isNegative then -res.total else res.total
        let frag :=
          (if isNegative then ['-'] else if frags.length > 0 then ['+'] else []) ++ res.details
        evalParts rest rng (k + drawsUsed actualPart) (total + value) (frags ++ [frag])
    else
      match jsParseInt trimmed with
      | some num =>
        let frag := (if 0 < num ∧ frags.length > 0 then ['+'] else []) ++ intToChars num
        evalParts rest rng k (total + num) (frags ++ [frag])
      | none => evalParts rest rng k total frags

/-- `evaluateDiceExpression(expression)` (dice.js lines 114-153):
normalise; if the whole expression matches the single-term dice grammar
(the fast-path regex of line 118 denotes the same language as the
`rollDice` regex), delegate to `rollDice`; otherwise split at signs and
fold the terms. -/
def evaluateDiceExpression (input : List Char) (rng : ℕ → ℚ) :
    Except DiceError EvalResult :=
  let expression := normChars input
  if (parseDiceFormula expression).isSome then
    (rollDice expression rng).map EvalResult.simple
  else
    match evalParts (splitSigns expression) rng 0 0 [] with
    | Except.error e => Except.error e
    | Except.ok (total, frags) =>
      Except.ok (EvalResult.compound
        { formula := jsToUpper expression
          total := total
          details := List.intercalate [' '] frags })

/-! ## Unfolding lemmas for `rollDice` -/

/-- On a grammar miss with an unreadable integer, `rollDice` throws
`FormatError` with the fixed message head and the normalised input. -/
theorem rollDice_format (s : List Char) (rng : ℕ → ℚ)
    (h1 : parseDiceFormula (normChars s) = none)
    (h2 : jsParseInt (normChars s) = none) :
    rollDice s rng = Except.error (DiceError.formatError (fmtErrHead ++ normChars s)) := by
  simp only [rollDice, h1, h2]

/-- On a grammar miss with a readable integer prefix, `rollDice` returns
the degenerate outcome. -/
theorem rollDice_degenerate (s : List Char) (rng : ℕ → ℚ) (n : ℤ)
    (h1 : parseDiceFormula (normChars s) = none)
    (h2 : jsParseInt (normChars s) = some n) :
    rollDice s rng = Except.ok
      { formula := normChars s, rolls := [n], kept := [n], modifier := 0,
        total := n, details := intToChars n } := by
  simp only [rollDice, h1, h2]

/-- Count bound: checked first, before any die is rolled. -/
theorem rollDice_tooMany (s : List Char) (rng : ℕ → ℚ) (req : RollRequest)
    (h : parseDiceFormula (normChars s) = some req) (hc : req.count > 100) :
    rollDice s rng = Except.error DiceError.tooManyDice := by
  simp only [rollDice, h, if_pos hc]

/-- Sides bound: checked second, still before any die is rolled. -/
theorem rollDice_tooManySides (s : List Char) (rng : ℕ → ℚ) (req : RollRequest)
    (h : parseDiceFormula (normChars s) = some req) (hc : ¬ req.count > 100)
    (hs : req.sides > 1000) :
    rollDice s rng = Except.error DiceError.tooManySides := by
  simp only [rollDice, h, if_neg hc, if_pos hs]

/-- A parsed request within bounds executes the rolling branch. -/
theorem rollDice_run (s : List Char) (rng : ℕ → ℚ) (req : RollRequest)
    (h : parseDiceFormula (normChars s) = some req) (hc : ¬ req.count > 100)
    (hs : ¬ req.sides > 1000) :
    rollDice s rng = Except.ok (execRoll (normChars s) req rng) := by
  simp only [rollDice, h, if_neg hc, if_neg hs]

/-- Inversion: a successful roll of a grammar-matching formula implies
the bounds held and the outcome is the executed roll. -/
theorem rollDice_ok_parsed_inv (s : List Char) (rng : ℕ → ℚ) (req : RollRequest)
    (o : RollOutcome) (h : parseDiceFormula (normChars s) = some req)
    (ho : rollDice s rng = Except.ok o) :
    req.count ≤ 100 ∧ req.sides ≤ 1000 ∧ o = execRoll (normChars s) req rng := by
  simp only [rollDice, h] at ho
  split_ifs at ho with h1 h2
  exact ⟨by omega, by omega, ((Except.ok.injEq _ _).mp ho).symm⟩

/-- Inversion: `FormatError` arises exactly from the double fallback
failure, and its message is the fixed head plus the normalised input. -/
theorem rollDice_formatError_inv (s : List Char) (rng : ℕ → ℚ) (msg : List Char)
    (h : rollDice s rng = Except.error (DiceError.formatError msg)) :
    parseDiceFormula (normChars s) = none ∧ jsParseInt (normChars s) = none ∧
      msg = fmtErrHead ++ normChars s := by
  cases hp : parseDiceFormula (normChars s) with
  | none =>
    cases hj : jsParseInt (normChars s) with
    | none =>
      rw [rollDice_format s rng hp hj] at h
      exact ⟨rfl, rfl, by injection h with h; injection h with h; exact h.symm⟩
    | some n =>
      rw [rollDice_degenerate s rng n hp hj] at h
      cases h
  | some req =>
    simp only [rollDice, hp] at h
    split_ifs at h <;> cases h

/-! ## Claims C3, C6, C9 — validation and error channels -/

/-- Claim C3 (amended): for every formula matching the dice grammar,
`count > 100` fails with `TooManyDice`; `sides > 1000` fails with
`TooManySides` provided `count ≤ 100` (the count check takes precedence);
both checks happen after the grammar match and before any die is rolled
(the result of a rejected request does not depend on the random stream);
and the boundary formulas `101d6`, `1d1001`, `100d1000` behave as
stated. -/
theorem c3_validation_bounds (s : List Char) (req : RollRequest) (rng : ℕ → ℚ)
    (h : parseDiceFormula (normChars s) = some req) :
    (req.count > 100 → rollDice s rng = Except.error DiceError.tooManyDice) ∧
    (req.count ≤ 100 → req.sides > 1000 →
      rollDice s rng = Except.error DiceError.tooManySides) ∧
    (req.count > 100 ∨ req.sides > 1000 → ∀ g : ℕ → ℚ, rollDice s g = rollDice s rng) ∧
    rollDice "101d6".data rng = Except.error DiceError.tooManyDice ∧
    rollDice "1d1001".data rng = Except.error DiceError.tooManySides ∧
    ∃ o, rollDice "100d1000".data rng = Except.ok o := by
  refine ⟨fun hc => rollDice_tooMany s rng req h hc,
          fun hc hs => rollDice_tooManySides s rng req h (by omega) hs,
          fun hor g => ?_,
          rollDice_tooMany _ rng
            { count := 101, sides := 6, keepMode := none, keepCount := 101, modifier := 0 }
            (by decide) (by decide),
          rollDice_tooManySides _ rng
            { count := 1, sides := 1001, keepMode := none, keepCount := 1, modifier := 0 }
            (by decide) (by decide) (by decide),
          ⟨_, rollDice_run _ rng
            { count := 100, sides := 1000, keepMode := none, keepCount := 100, modifier := 0 }
            (by decide) (by decide) (by decide)⟩⟩
  by_cases hc : req.count > 100
  · rw [rollDice_tooMany s g req h hc, rollDice_tooMany s rng req h hc]
  · have hs : req.sides > 1000 := by
      rcases hor with h1 | h1
      · exact absurd h1 hc
      · exact h1
    rw [rollDice_tooManySides s g req h hc hs, rollDice_tooManySides s rng req h hc hs]

/-- Claim C3, witness: the theorem instantiated at `101d6` and a
constant random stream. -/
theorem c3_witness :
    parseDiceFormula (normChars "101d6".data) =
      some { count := 101, sides := 6, keepMode := none, keepCount := 101, modifier := 0 } ∧
    ((101 > 100 → rollDice "101d6".data (fun _ => 0) = Except.error DiceError.tooManyDice) ∧
     (101 ≤ 100 → 6 > 1000 →
       rollDice "101d6".data (fun _ => 0) = Except.error DiceError.tooManySides) ∧
     (101 > 100 ∨ 6 > 1000 →
       ∀ g : ℕ → ℚ, rollDice "101d6".data g = rollDice "101d6".data (fun _ => 0)) ∧
     rollDice "101d6".data (fun _ => 0) = Except.error DiceError.tooManyDice ∧
     rollDice "1d1001".data (fun _ => 0) = Except.error DiceError.tooManySides ∧
     ∃ o, rollDice "100d1000".data (fun _ => 0) = Except.ok o) :=
  ⟨by decide,
   c3_validation_bounds "101d6".data
     { count := 101, sides := 6, keepMode := none, keepCount := 101, modifier := 0 }
     (fun _ => 0) (by decide)⟩

/-- Claim C3, counterexample to the unconditional second conditional:
`101d1001` has `sides = 1001 > 1000` yet fails with `TooManyDice`, not
`TooManySides`. -/
theorem c3_counterexample :
    parseDiceFormula (normChars "101d1001".data) =
      some { count := 101, sides := 1001, keepMode := none, keepCount := 101, modifier := 0 } ∧
    rollDice "101d1001".data (fun _ => 0) = Except.error DiceError.tooManyDice ∧
    rollDice "101d1001".data (fun _ => 0) ≠ Except.error DiceError.tooManySides := by
  refine ⟨by decide, by decide, by decide⟩

/-- Claim C6 (amended): `rollDice` raises `FormatError` exactly when the
trimmed, lowercased input neither matches the dice grammar nor yields an
integer under JS `parseInt` prefix semantics; when the grammar misses
but `parseInt` reads an integer `n` (so also for inputs such as `7abc`,
which only carry an integer prefix), the call succeeds with the
degenerate outcome; and on the `FormatError` path the result does not
depend on the random stream — no die is rolled. -/
theorem c6_formatError_iff (s : List Char) (rng : ℕ → ℚ) :
    ((∃ msg, rollDice s rng = Except.error (DiceError.formatError msg)) ↔
      parseDiceFormula (normChars s) = none ∧ jsParseInt (normChars s) = none) ∧
    (∀ n : ℤ, parseDiceFormula (normChars s) = none → jsParseInt (normChars s) = some n →
      rollDice s rng = Except.ok
        { formula := normChars s, rolls := [n], kept := [n], modifier := 0,
          total := n, details := intToChars n }) ∧
    (parseDiceFormula (normChars s) = none → jsParseInt (normChars s) = none →
      ∀ g : ℕ → ℚ, rollDice s g = rollDice s rng) := by
  refine ⟨⟨fun hex => ?_, fun hand => ⟨_, rollDice_format s rng hand.1 hand.2⟩⟩,
          fun n h1 h2 => rollDice_degenerate s rng n h1 h2,
          fun h1 h2 g => by rw [rollDice_format s g h1 h2, rollDice_format s rng h1 h2]⟩
  obtain ⟨msg, hm⟩ := hex
  obtain ⟨h1, h2, -⟩ := rollDice_formatError_inv s rng msg hm
  exact ⟨h1, h2⟩

/-- Claim C6, witness: the theorem instantiated at `banana`. -/
theorem c6_witness :
    ((∃ msg, rollDice "banana".data (fun _ => 0) = Except.error (DiceError.formatError msg)) ↔
      parseDiceFormula (normChars "banana".data) = none ∧
        jsParseInt (normChars "banana".data) = none) ∧
    (∀ n : ℤ, parseDiceFormula (normChars "banana".data) = none →
      jsParseInt (normChars "banana".data) = some n →
      rollDice "banana".data (fun _ => 0) = Except.ok
        { formula := normChars "banana".data, rolls := [n], kept := [n], modifier := 0,
          total := n, details := intToChars n }) ∧
    (parseDiceFormula (normChars "banana".data) = none →
      jsParseInt (normChars "banana".data) = none →
      ∀ g : ℕ → ℚ, rollDice "banana".data g = rollDice "banana".data (fun _ => 0)) :=
  c6_formatError_iff "banana".data (fun _ => 0)

/-- Claim C6, counterexample to the claim as stated: `7abc` is neither a
grammar match nor a plain integer, yet it succeeds (via the `parseInt`
prefix); and `101d6` matches the grammar yet does not succeed. -/
theorem c6_counterexample :
    rollDice "7abc".data (fun _ => 0) = Except.ok
      { formula := "7abc".data, rolls := [7], kept := [7], modifier := 0,
        total := 7, details := "7".data } ∧
    (parseDiceFormula (normChars "101d6".data)).isSome = true ∧
    rollDice "101d6".data (fun _ => 0) = Except.error DiceError.tooManyDice := by
  refine ⟨by decide, by decide, by decide⟩

/-- Claim C9 (amended): every `FormatError` message is the fixed message
head followed by the trimmed, lowercased input; in particular it
contains the normalised form of the input (as a suffix), not the
original untrimmed text. -/
theorem c9_formatError_message (s : List Char) (rng : ℕ → ℚ) (msg : List Char)
    (h : rollDice s rng = Except.error (DiceError.formatError msg)) :
    msg = fmtErrHead ++ normChars s ∧ normChars s <:+ msg := by
  obtain ⟨-, -, h3⟩ := rollDice_formatError_inv s rng msg h
  exact ⟨h3, h3 ▸ ⟨fmtErrHead, rfl⟩⟩

/-- Claim C9, witness: instantiated at the uppercase input `BANANA`,
whose error message carries the lowercased form. -/
theorem c9_witness :
    "无法解析骰子公式: banana".data = fmtErrHead ++ normChars "BANANA".data ∧
    normChars "BANANA".data <:+ "无法解析骰子公式: banana".data :=
  c9_formatError_message "BANANA".data (fun _ => 0) _ (by decide)

/-- Claim C9, counterexample to the claim as stated: for the input
`"  BaNaNa "` the thrown message contains the trimmed lowercased
`banana`, and does not contain the original untrimmed input. -/
theorem c9_counterexample :
    rollDice "  BaNaNa ".data (fun _ => 0) =
      Except.error (DiceError.formatError ("无法解析骰子公式: banana".data)) ∧
    ¬ "  BaNaNa ".data <:+: "无法解析骰子公式: banana".data := by
  refine ⟨by decide, by decide⟩

/-! ## Digit-string facts and Claim C7 -/

/-- A decimal digit is not whitespace. -/
theorem not_isWs_of_isDigit (c : Char) (h : c.isDigit = true) : isWsB c = false := by
  revert h
  unfold isWsB Char.isWhitespace Char.isDigit
  by_cases h1 : c = ' '
  · subst h1; decide
  by_cases h2 : c = '\t'
  · subst h2; decide
  by_cases h3 : c = '\r'
  · subst h3; decide
  by_cases h4 : c = '\n'
  · subst h4; decide
  intro _
  simp [h1, h2, h3, h4]

/-- A digit differs from any non-digit character. -/
theorem digit_ne (c x : Char) (h : c.isDigit = true) (hx : x.isDigit = false) :
    c ≠ x := by
  intro e
  subst e
  rw [h] at hx
  cases hx

/-- Dropping whitespace from an all-digit list changes nothing. -/
theorem dropWhile_ws_digits (l : List Char) (h : ∀ c ∈ l, c.isDigit = true) :
    l.dropWhile isWsB = l := by
  cases l with
  | nil => rfl
  | cons a t =>
    rw [List.dropWhile_cons, not_isWs_of_isDigit a (h a (List.mem_cons_self a t))]
    simp

/-- `takeWhile` keeps an all-digit list whole. -/
theorem takeWhile_digits_all (l : List Char) (h : ∀ c ∈ l, c.isDigit = true) :
    l.takeWhile Char.isDigit = l :=
  List.takeWhile_eq_self_iff.mpr h

/-- `dropWhile` exhausts an all-digit list. -/
theorem dropWhile_digits_all (l : List Char) (h : ∀ c ∈ l, c.isDigit = true) :
    l.dropWhile Char.isDigit = [] :=
  List.dropWhile_eq_nil_iff.mpr h

/-- An all-digit list cannot match the dice grammar: after the digit run
nothing is left, in particular no `d`. -/
theorem parseDiceFormula_digits (l : List Char) (h : ∀ c ∈ l, c.isDigit = true) :
    parseDiceFormula l = none := by
  unfold parseDiceFormula
  rw [dropWhile_digits_all l h]

/-- A sign-led list never matches the dice grammar (the pattern starts
with digits or `d`, and a sign is neither). -/
theorem parseDiceFormula_sign (c : Char) (t : List Char)
    (hc : c.isDigit = false) (hd : c ≠ 'd') :
    parseDiceFormula (c :: t) = none := by
  unfold parseDiceFormula
  rw [List.dropWhile_cons, hc]
  simp only [Bool.false_eq_true, if_false]
  split
  · next heq => exact absurd (List.cons.inj heq).1 hd
  · rfl

/-- The first character of a (nonempty) digit run is not `x`-marked hex:
used to rule the `0x` branch of `parseInt` out. -/
theorem no_hex_marker (l : List Char) (h : ∀ c ∈ l, c.isDigit = true) :
    ¬ (l.head? = some '0' ∧ (l.tail.head? = some 'x' ∨ l.tail.head? = some 'X')) := by
  rintro ⟨-, h2 | h2⟩ <;>
  · cases l with
    | nil => cases h2
    | cons a t =>
      cases t with
      | nil => cases h2
      | cons b t2 =>
        simp only [List.tail_cons, List.head?_cons, Option.some.injEq] at h2
        subst h2
        exact absurd (h _ (List.mem_cons_of_mem _ (List.mem_cons_self _ _))) (by decide)

/-- JS `parseInt` on a pure digit run returns its decimal value. -/
theorem jsParseInt_digits (ds : List Char) (h0 : ds ≠ [])
    (h : ∀ c ∈ ds, c.isDigit = true) :
    jsParseInt ds = some ((digitsVal ds : ℕ) : ℤ) := by
  obtain ⟨c, t, rfl⟩ := List.exists_cons_of_ne_nil h0
  have hc := h c (List.mem_cons_self c t)
  have hcp : c ≠ '+' := digit_ne c '+' hc (by decide)
  have hcm : c ≠ '-' := digit_ne c '-' hc (by decide)
  have hsg : jsSign (c :: t) = 1 := by simp [jsSign, hcm]
  have hbd : jsBody (c :: t) = c :: t := by simp [jsBody, hcp, hcm]
  simp only [jsParseInt, dropWhile_ws_digits _ h, hsg, hbd]
  rw [if_neg (no_hex_marker (c :: t) h), takeWhile_digits_all _ h]
  simp

/-- JS `parseInt` on a sign followed by a digit run. -/
theorem jsParseInt_sign_digits (c : Char) (ds : List Char) (hsgn : c = '+' ∨ c = '-')
    (h0 : ds ≠ []) (h : ∀ x ∈ ds, x.isDigit = true) :
    jsParseInt (c :: ds) =
      some ((if c = '-' then -1 else 1) * ((digitsVal ds : ℕ) : ℤ)) := by
  have hne : isWsB c = false := by rcases hsgn with rfl | rfl <;> decide
  have hsg : jsSign (c :: ds) = if c = '-' then -1 else 1 := by
    rcases hsgn with rfl | rfl <;> simp [jsSign]
  have hbd : jsBody (c :: ds) = ds := by
    rcases hsgn with rfl | rfl <;> simp [jsBody]
  simp only [jsParseInt, List.dropWhile_cons, hne, Bool.false_eq_true, if_false,
    hsg, hbd]
  rw [if_neg (no_hex_marker ds h), takeWhile_digits_all _ h]
  simp [h0]

/-- Claim C7: for every input whose trimmed, lowercased form is a plain
(optionally signed) decimal integer denoting `n` — such a form never
matches the dice grammar — `rollDice` returns the degenerate outcome
`rolls = [n]`, `kept = [n]`, `modifier = 0`, `total = n` and `details`
the string rendering of `n`, without consulting the random source. -/
theorem c7_plain_integer (s : List Char) (rng : ℕ → ℚ) (ds : List Char) (n : ℤ)
    (hne : ds ≠ []) (hdig : ∀ c ∈ ds, c.isDigit = true)
    (hshape : normChars s = ds ∧ n = (digitsVal ds : ℤ) ∨
              normChars s = '+' :: ds ∧ n = (digitsVal ds : ℤ) ∨
              normChars s = '-' :: ds ∧ n = -(digitsVal ds : ℤ)) :
    rollDice s rng = Except.ok
      { formula := normChars s, rolls := [n], kept := [n], modifier := 0,
        total := n, details := intToChars n } ∧
    ∀ g : ℕ → ℚ, rollDice s g = rollDice s rng := by
  have key : parseDiceFormula (normChars s) = none ∧ jsParseInt (normChars s) = some n := by
    rcases hshape with ⟨hs, hn⟩ | ⟨hs, hn⟩ | ⟨hs, hn⟩
    · exact ⟨hs ▸ parseDiceFormula_digits ds hdig,
             by rw [hs, jsParseInt_digits ds hne hdig, hn]⟩
    · refine ⟨hs ▸ parseDiceFormula_sign '+' ds (by decide) (by decide), ?_⟩
      rw [hs, jsParseInt_sign_digits '+' ds (Or.inl rfl) hne hdig, hn,
        if_neg (by decide : ¬ ('+' : Char) = '-')]
      norm_num
    · refine ⟨hs ▸ parseDiceFormula_sign '-' ds (by decide) (by decide), ?_⟩
      rw [hs, jsParseInt_sign_digits '-' ds (Or.inr rfl) hne hdig, hn,
        if_pos rfl]
      norm_num
  exact ⟨rollDice_degenerate s rng n key.1 key.2, fun g => by
    rw [rollDice_degenerate s g n key.1 key.2, rollDice_degenerate s rng n key.1 key.2]⟩

/-- Claim C7, witness: the input `7` yields the degenerate roll of 7,
independently of the random stream. -/
theorem c7_witness :
    rollDice "7".data (fun _ => 0) = Except.ok
      { formula := "7".data, rolls := [7], kept := [7], modifier := 0,
        total := 7, details := "7".data } ∧
    ∀ g : ℕ → ℚ, rollDice "7".data g = rollDice "7".data (fun _ => 0) := by
  have h := c7_plain_integer "7".data (fun _ => 0) ['7'] 7 (by decide) (by decide)
    (Or.inl ⟨by decide, by decide⟩)
  rwa [show normChars "7".data = "7".data from rfl,
    show intToChars (7 : ℤ) = "7".data from rfl] at h

/-! ## Decimal rendering: correctness of `natToChars` -/

/-- The digit character of `d < 10` is a digit with value `48 + d`. -/
theorem digitCharOf_isDigit (d : ℕ) (h : d < 10) :
    (digitCharOf d).isDigit = true ∧ (digitCharOf d).toNat = 48 + d := by
  interval_cases d <;> exact ⟨by decide, by decide⟩

/-- The fuel in `natToCharsAux` is irrelevant once it exceeds `n`. -/
theorem natToCharsAux_fuel (f1 : ℕ) : ∀ f2 n : ℕ, n < f1 → n < f2 →
    natToCharsAux f1 n = natToCharsAux f2 n := by
  induction f1 with
  | zero => intro f2 n h1; omega
  | succ f ih =>
    intro f2 n h1 h2
    cases f2 with
    | zero => omega
    | succ g =>
      show natToCharsAux (f + 1) n = natToCharsAux (g + 1) n
      simp only [natToCharsAux]
      split
      · rfl
      · next hge => rw [ih g (n / 10) (by omega) (by omega)]

/-- Unfolding rule for `natToChars` hiding the fuel. -/
theorem natToChars_unfold (n : ℕ) :
    natToChars n =
      if n < 10 then [digitCharOf n]
      else natToChars (n / 10) ++ [digitCharOf (n % 10)] := by
  show natToCharsAux (n + 1) n = _
  simp only [natToCharsAux]
  split
  · rfl
  · next hge =>
    rw [natToCharsAux_fuel n (n / 10 + 1) (n / 10) (by omega) (by omega)]
    rfl

/-- Every character of the decimal rendering is a digit. -/
theorem natToChars_digits (n : ℕ) : ∀ c ∈ natToChars n, c.isDigit = true := by
  induction n using Nat.strong_induction_on with
  | _ n ih =>
    rw [natToChars_unfold]
    split
    · next h =>
      intro c hc
      rw [List.mem_singleton] at hc
      exact hc ▸ (digitCharOf_isDigit n h).1
    · next h =>
      intro c hc
      rw [List.mem_append] at hc
      rcases hc with hc | hc
      · exact ih (n / 10) (by omega) c hc
      · rw [List.mem_singleton] at hc
        exact hc ▸ (digitCharOf_isDigit (n % 10) (by omega)).1

/-- The decimal rendering is never empty. -/
theorem natToChars_ne_nil (n : ℕ) : natToChars n ≠ [] := by
  rw [natToChars_unfold]
  split
  · simp
  · simp

/-- Reading the rendering back yields the number: the round trip
justifying that the formula `"{count}d{sides}"` parses to `count` and
`sides`. -/
theorem digitsVal_natToChars (n : ℕ) : digitsVal (natToChars n) = n := by
  induction n using Nat.strong_induction_on with
  | _ n ih =>
    rw [natToChars_unfold]
    split
    · next h =>
      show digitsVal [digitCharOf n] = n
      unfold digitsVal
      simp [(digitCharOf_isDigit n h).2]
    · next h =>
      unfold digitsVal
      rw [List.foldl_append]
      have hrec := ih (n / 10) (by omega)
      unfold digitsVal at hrec
      simp only [List.foldl_cons, List.foldl_nil, hrec,
        (digitCharOf_isDigit (n % 10) (by omega)).2]
      omega

/-! ## Claim C2 — plain `NdX` rolls -/

/-- `dropWhile` is the identity when nothing at the front satisfies the
predicate anywhere in the list. -/
theorem dropWhile_false (p : Char → Bool) (l : List Char)
    (h : ∀ c ∈ l, p c = false) : l.dropWhile p = l := by
  cases l with
  | nil => rfl
  | cons a t =>
    rw [List.dropWhile_cons, h a (List.mem_cons_self a t)]
    simp

/-- Pointwise-fixed maps are the identity. -/
theorem map_fix (f : Char → Char) (l : List Char) (h : ∀ c ∈ l, f c = c) :
    l.map f = l := by
  induction l with
  | nil => rfl
  | cons a t ih =>
    rw [List.map_cons, h a (List.mem_cons_self a t),
      ih fun c hc => h c (List.mem_cons_of_mem a hc)]

/-- Normalisation fixes lists without border whitespace and without
uppercase letters. -/
theorem normChars_eq_self (l : List Char) (hws : ∀ c ∈ l, isWsB c = false)
    (hlo : ∀ c ∈ l, Char.toLower c = c) : normChars l = l := by
  unfold normChars jsTrim jsToLower
  rw [dropWhile_false _ _ hws,
    dropWhile_false _ _ (fun c hc => hws c (List.mem_reverse.mp hc)),
    List.reverse_reverse, map_fix _ _ hlo]

/-- A char with a column outside the uppercase band is fixed by
`toLower`. -/
theorem toLower_fix (c : Char) (h : c.toNat < 65 ∨ 90 < c.toNat) :
    Char.toLower c = c := by
  unfold Char.toLower
  rw [if_neg (by omega)]

/-- Digits sit in columns 48-57. -/
theorem digit_toNat_bounds (c : Char) (h : c.isDigit = true) :
    48 ≤ c.toNat ∧ c.toNat ≤ 57 := by
  unfold Char.isDigit at h
  rw [Bool.and_eq_true, decide_eq_true_eq, decide_eq_true_eq] at h
  exact h

/-- The digit run before a non-digit splits off exactly. -/
theorem takeWhile_append_digits (A B : List Char) (c : Char)
    (hA : ∀ x ∈ A, x.isDigit = true) (hc : c.isDigit = false) :
    (A ++ c :: B).takeWhile Char.isDigit = A ∧
    (A ++ c :: B).dropWhile Char.isDigit = c :: B := by
  induction A with
  | nil => constructor <;> simp [List.takeWhile_cons, List.dropWhile_cons, hc]
  | cons a A ih =>
    have ha := hA a (List.mem_cons_self a A)
    obtain ⟨iht, ihd⟩ := ih fun x hx => hA x (List.mem_cons_of_mem a hx)
    constructor
    · rw [List.cons_append, List.takeWhile_cons, ha]
      simp [iht]
    · rw [List.cons_append, List.dropWhile_cons, ha]
      simp [ihd]

/-- Nonempty lists are not `isEmpty`. -/
theorem isEmpty_false_of_ne_nil (l : List Char) (h : l ≠ []) :
    l.isEmpty = false := by
  cases l with
  | nil => exact absurd rfl h
  | cons a t => rfl

/-- The formula `"{count}d{sides}"` parses to the plain request. -/
theorem parse_plain (c s : ℕ) :
    parseDiceFormula (natToChars c ++ 'd' :: natToChars s) =
      some { count := c, sides := s, keepMode := none, keepCount := c, modifier := 0 } := by
  obtain ⟨ht, hd⟩ :=
    takeWhile_append_digits (natToChars c) (natToChars s) 'd' (natToChars_digits c)
      (by decide)
  simp only [parseDiceFormula, ht, hd]
  rw [takeWhile_digits_all _ (natToChars_digits s),
    dropWhile_digits_all _ (natToChars_digits s),
    isEmpty_false_of_ne_nil _ (natToChars_ne_nil s),
    isEmpty_false_of_ne_nil _ (natToChars_ne_nil c)]
  simp [parseKeep, parseModifier, digitsVal_natToChars]

/-- The formula `"{count}d{sides}"` is already normalised. -/
theorem normChars_plain (c s : ℕ) :
    normChars (natToChars c ++ 'd' :: natToChars s) =
      natToChars c ++ 'd' :: natToChars s := by
  have hmem : ∀ x ∈ natToChars c ++ 'd' :: natToChars s,
      x.isDigit = true ∨ x = 'd' := by
    intro x hx
    rw [List.mem_append, List.mem_cons] at hx
    rcases hx with hx | hx | hx
    · exact Or.inl (natToChars_digits c x hx)
    · exact Or.inr hx
    · exact Or.inl (natToChars_digits s x hx)
  refine normChars_eq_self _ (fun x hx => ?_) (fun x hx => ?_)
  · rcases hmem x hx with h | rfl
    · exact not_isWs_of_isDigit x h
    · decide
  · rcases hmem x hx with h | rfl
    · exact toLower_fix x (Or.inl (by have := digit_toNat_bounds x h; omega))
    · decide

/-- Bounds for a single die: with a draw in `[0, 1)` and at least one
side, the die shows a value in `[1, sides]`. -/
theorem rollDie_bounds (sides : ℕ) (r : ℚ) (h0 : 0 ≤ r) (h1 : r < 1)
    (hs : 1 ≤ sides) : 1 ≤ rollDie sides r ∧ rollDie sides r ≤ (sides : ℤ) := by
  unfold rollDie
  have hcast : (0 : ℚ) < (sides : ℚ) := by
    exact_mod_cast Nat.pos_of_ne_zero (by omega)
  constructor
  · have hnn : (0 : ℚ) ≤ r * (sides : ℚ) := mul_nonneg h0 (le_of_lt hcast)
    have := Int.floor_nonneg.mpr hnn
    omega
  · have hlt : r * (sides : ℚ) < ((sides : ℤ) : ℚ) := by
      push_cast
      calc r * (sides : ℚ) < 1 * (sides : ℚ) := mul_lt_mul_of_pos_right h1 hcast
        _ = (sides : ℚ) := one_mul _
    have := Int.floor_lt.mpr hlt
    omega

/-- The rolls produced on the success path: one die per index. -/
theorem rollsOf_spec (req : RollRequest) (rng : ℕ → ℚ)
    (hrng : ∀ i, 0 ≤ rng i ∧ rng i < 1) (hs : 1 ≤ req.sides) :
    (rollsOf req rng).length = req.count ∧
    ∀ v ∈ rollsOf req rng, 1 ≤ v ∧ v ≤ (req.sides : ℤ) := by
  constructor
  · simp [rollsOf]
  · intro v hv
    simp only [rollsOf, List.mem_map] at hv
    obtain ⟨i, -, rfl⟩ := hv
    exact rollDie_bounds req.sides (rng i) (hrng i).1 (hrng i).2 hs

/-- Claim C2: for every `count` in `[1, 100]` and `sides` in `[1, 1000]`,
rolling the formula `"{count}d{sides}"` succeeds and returns `rolls` of
length `count` with every value in `[1, sides]`, `kept` equal to `rolls`
verbatim, and `total` equal to the sum of `rolls`. -/
theorem c2_simple_roll (c s : ℕ) (rng : ℕ → ℚ)
    (hc1 : 1 ≤ c) (hc2 : c ≤ 100) (hs1 : 1 ≤ s) (hs2 : s ≤ 1000)
    (hrng : ∀ i, 0 ≤ rng i ∧ rng i < 1) :
    ∃ o, rollDice (natToChars c ++ 'd' :: natToChars s) rng = Except.ok o ∧
      o.rolls.length = c ∧
      (∀ v ∈ o.rolls, 1 ≤ v ∧ v ≤ (s : ℤ)) ∧
      o.kept = o.rolls ∧
      o.total = o.rolls.sum := by
  have hparse : parseDiceFormula (normChars (natToChars c ++ 'd' :: natToChars s)) =
      some { count := c, sides := s, keepMode := none, keepCount := c, modifier := 0 } := by
    rw [normChars_plain, parse_plain]
  have hrun := rollDice_run _ rng _ hparse (by simp; omega) (by simp; omega)
  refine ⟨_, hrun, ?_, ?_, ?_, ?_⟩
  · exact (rollsOf_spec _ rng hrng (by simpa using hs1)).1
  · exact (rollsOf_spec _ rng hrng (by simpa using hs1)).2
  · simp [execRoll, keptOf]
  · simp [execRoll, keptOf]

/-- Claim C2, witness: `2d6` with the constant draw `1/2`. -/
theorem c2_witness :
    (1 ≤ 2 ∧ 2 ≤ 100 ∧ 1 ≤ 6 ∧ 6 ≤ 1000 ∧
      ∀ i : ℕ, 0 ≤ (fun _ : ℕ => (1 : ℚ)/2) i ∧ (fun _ : ℕ => (1 : ℚ)/2) i < 1) ∧
    ∃ o, rollDice (natToChars 2 ++ 'd' :: natToChars 6) (fun _ : ℕ => (1 : ℚ)/2) =
        Except.ok o ∧
      o.rolls.length = 2 ∧
      (∀ v ∈ o.rolls, 1 ≤ v ∧ v ≤ (6 : ℤ)) ∧
      o.kept = o.rolls ∧
      o.total = o.rolls.sum :=
  ⟨⟨by norm_num, by norm_num, by norm_num, by norm_num, fun i => by norm_num⟩,
   c2_simple_roll 2 6 (fun _ => (1 : ℚ)/2) (by norm_num) (by norm_num) (by norm_num)
     (by norm_num) (fun i => by norm_num)⟩

/-! ## Claim C4 — which invariants the parser actually enforces -/

/-- The sorted tagged list is a permutation of the tagged list and has
the same length as `rolls`. -/
theorem sortedTagged_length (m : KeepMode) (rolls : List ℤ) :
    (List.insertionSort (keepLe m) (tag rolls)).length = rolls.length := by
  rw [(List.perm_insertionSort (keepLe m) (tag rolls)).length_eq]
  simp [tag, List.enum_length]

/-- The second components of the sorted tagged list enumerate exactly
the positions of `rolls`. -/
theorem sortedTagged_snd_perm (m : KeepMode) (rolls : List ℤ) :
    ((List.insertionSort (keepLe m) (tag rolls)).map Prod.snd).Perm
      (List.range rolls.length) := by
  have h := (List.perm_insertionSort (keepLe m) (tag rolls)).map Prod.snd
  have : (tag rolls).map Prod.snd = List.range rolls.length := by
    simp [tag, List.map_map]
    exact List.enum_map_fst rolls
  rwa [this] at h

/-- With `keepCount` at least the number of dice, every index is kept. -/
theorem keptIdx_mem_all (m : KeepMode) (rolls : List ℤ) (k : ℕ)
    (hk : rolls.length ≤ k) : ∀ i < rolls.length, i ∈ keptIdx m rolls k := by
  intro i hi
  unfold keptIdx
  rw [List.take_of_length_le (by rw [sortedTagged_length]; exact hk)]
  exact ((sortedTagged_snd_perm m rolls).mem_iff).mpr (List.mem_range.mpr hi)

/-- The kept list is all of `rolls` when no keep mode is given or when
`keepCount` covers every die. -/
theorem keptOf_all (req : RollRequest) (rolls : List ℤ)
    (h : req.keepMode = none ∨ rolls.length ≤ req.keepCount) :
    keptOf req rolls = rolls := by
  unfold keptOf
  cases hm : req.keepMode with
  | none => rfl
  | some m =>
    have hk : rolls.length ≤ req.keepCount := by
      rcases h with h | h
      · rw [hm] at h; cases h
      · exact h
    show (rolls.enum.filter fun p => decide (p.1 ∈ keptIdx m rolls req.keepCount)).map
      Prod.snd = rolls
    rw [List.filter_eq_self.mpr, List.enum_map_snd]
    intro p hp
    have hlt : p.1 < rolls.length := by
      have := List.mem_enum_iff_get?.mp hp
      have := List.get?_eq_some.mp this
      exact this.1
    exact decide_eq_true (keptIdx_mem_all m rolls req.keepCount hk p.1 hlt)

/-- A zero-sided die always shows 1 (`Math.floor(r * 0) + 1`). -/
theorem rollDie_zero (r : ℚ) : rollDie 0 r = 1 := by
  unfold rollDie
  rw [Nat.cast_zero, mul_zero, Int.floor_zero]
  omega

/-- Claim C4 (amended): a parsed request only has to pass the two upper
bound checks to be rolled; the lower-bound invariants of the claim are
not enforced: `0d6` (count 0), `1d0` (sides 0) and `2d6kh5`
(`keepCount > count`) are all accepted and rolled rather than rejected,
the last keeping all dice. -/
theorem c4_accepted_requests (s : List Char) (req : RollRequest) (rng : ℕ → ℚ)
    (h : parseDiceFormula (normChars s) = some req)
    (hc : req.count ≤ 100) (hs : req.sides ≤ 1000) :
    (∃ o, rollDice s rng = Except.ok o) ∧
    (req.keepMode = none ∨ req.count ≤ req.keepCount →
      ∃ o, rollDice s rng = Except.ok o ∧ o.kept = o.rolls) ∧
    parseDiceFormula (normChars "0d6".data) =
      some { count := 0, sides := 6, keepMode := none, keepCount := 0, modifier := 0 } ∧
    (∃ o, rollDice "0d6".data rng = Except.ok o ∧ o.rolls = [] ∧ o.total = 0) ∧
    parseDiceFormula (normChars "1d0".data) =
      some { count := 1, sides := 0, keepMode := none, keepCount := 1, modifier := 0 } ∧
    (∃ o, rollDice "1d0".data rng = Except.ok o ∧ o.rolls = [1]) ∧
    parseDiceFormula (normChars "2d6kh5".data) =
      some { count := 2, sides := 6, keepMode := some KeepMode.kh, keepCount := 5,
             modifier := 0 } ∧
    (∃ o, rollDice "2d6kh5".data rng = Except.ok o ∧ o.kept = o.rolls) := by
  have hrun := rollDice_run s rng req h (by omega) (by omega)
  have hlen : (rollsOf req rng).length = req.count := by simp [rollsOf]
  refine ⟨⟨_, hrun⟩, fun hkeep => ⟨_, hrun, ?_⟩, by decide, ?_, by decide, ?_, by decide, ?_⟩
  · show keptOf req (rollsOf req rng) = rollsOf req rng
    refine keptOf_all req _ ?_
    rcases hkeep with h1 | h1
    · exact Or.inl h1
    · exact Or.inr (by omega)
  · refine ⟨_, rollDice_run "0d6".data rng
      { count := 0, sides := 6, keepMode := none, keepCount := 0, modifier := 0 }
      (by decide) (by decide) (by decide), ?_, ?_⟩
    · show rollsOf _ rng = []
      simp [rollsOf]
    · show (keptOf _ (rollsOf _ rng)).sum + 0 = 0
      simp [rollsOf, keptOf]
  · refine ⟨_, rollDice_run "1d0".data rng
      { count := 1, sides := 0, keepMode := none, keepCount := 1, modifier := 0 }
      (by decide) (by decide) (by decide), ?_⟩
    show rollsOf _ rng = [1]
    simp [rollsOf, List.range_succ, rollDie_zero]
  · refine ⟨_, rollDice_run "2d6kh5".data rng
      { count := 2, sides := 6, keepMode := some KeepMode.kh, keepCount := 5, modifier := 0 }
      (by decide) (by decide) (by decide), ?_⟩
    show keptOf
        { count := 2, sides := 6, keepMode := some KeepMode.kh, keepCount := 5, modifier := 0 }
        (rollsOf
          { count := 2, sides := 6, keepMode := some KeepMode.kh, keepCount := 5, modifier := 0 }
          rng) =
      rollsOf
        { count := 2, sides := 6, keepMode := some KeepMode.kh, keepCount := 5, modifier := 0 }
        rng
    refine keptOf_all _ _ (Or.inr ?_)
    simp [rollsOf]

/-- Claim C4, witness: the theorem instantiated at the formula `0d6`. -/
theorem c4_witness :
    parseDiceFormula (normChars "0d6".data) =
      some { count := 0, sides := 6, keepMode := none, keepCount := 0, modifier := 0 } ∧
    (∃ o, rollDice "0d6".data (fun _ => 0) = Except.ok o) :=
  ⟨by decide,
   (c4_accepted_requests "0d6".data
      { count := 0, sides := 6, keepMode := none, keepCount := 0, modifier := 0 }
      (fun _ => 0) (by decide) (by decide) (by decide)).1⟩

/-- Claim C4, counterexample to the claim as stated: the formula `0d6`
violates `count ≥ 1` yet is accepted by the parser and rolled (zero
dice, empty rolls, total 0) instead of failing at parse time. -/
theorem c4_counterexample :
    parseDiceFormula (normChars "0d6".data) =
      some { count := 0, sides := 6, keepMode := none, keepCount := 0, modifier := 0 } ∧
    rollDice "0d6".data (fun _ => 0) = Except.ok
      { formula := "0D6".data, rolls := [], kept := [], modifier := 0,
        total := 0, details := "[]".data } := by
  refine ⟨by decide, by decide⟩

/-! ## Claim C5 — fast-path equivalence of the two entry points -/

/-- Characters are determined by their code points. -/
theorem char_toNat_inj (c d : Char) (h : c.toNat = d.toNat) : c = d :=
  Char.ext (UInt32.ext h)

/-- Whitespace status in terms of code points. -/
theorem isWs_iff_toNat (c : Char) :
    isWsB c = true ↔ c.toNat = 32 ∨ c.toNat = 9 ∨ c.toNat = 13 ∨ c.toNat = 10 := by
  unfold isWsB Char.isWhitespace
  simp only [Bool.or_eq_true, decide_eq_true_eq, beq_iff_eq]
  constructor
  · rintro (((rfl | rfl) | rfl) | rfl) <;> decide
  · rintro (h | h | h | h)
    · simp [char_toNat_inj c ' ' h]
    · simp [char_toNat_inj c '\t' h]
    · simp [char_toNat_inj c '\r' h]
    · simp [char_toNat_inj c '\n' h]

/-- Uppercase code points map to their lowercase counterparts. -/
theorem toLower_toNat_upper (c : Char) (h : 65 ≤ c.toNat ∧ c.toNat ≤ 90) :
    (Char.toLower c).toNat = c.toNat + 32 := by
  unfold Char.toLower
  rw [if_pos (by omega)]
  have h1 : 97 ≤ c.toNat + 32 := by omega
  have h2 : c.toNat + 32 ≤ 122 := by omega
  generalize c.toNat + 32 = m at h1 h2 ⊢
  interval_cases m <;> decide

/-- Lowercasing is idempotent. -/
theorem toLower_toLower (c : Char) :
    Char.toLower (Char.toLower c) = Char.toLower c := by
  by_cases h : 65 ≤ c.toNat ∧ c.toNat ≤ 90
  · exact toLower_fix _ (Or.inr (by rw [toLower_toNat_upper c h]; omega))
  · rw [toLower_fix c (by omega), toLower_fix c (by omega)]

/-- Lowercasing does not create or destroy whitespace. -/
theorem isWs_toLower (c : Char) : isWsB (Char.toLower c) = isWsB c := by
  by_cases h : 65 ≤ c.toNat ∧ c.toNat ≤ 90
  · have h2 := toLower_toNat_upper c h
    have hl : isWsB (Char.toLower c) = false := by
      rcases hb : isWsB (Char.toLower c) with - | -
      · rfl
      · have := (isWs_iff_toNat _).mp hb
        omega
    have hr : isWsB c = false := by
      rcases hb : isWsB c with - | -
      · rfl
      · have := (isWs_iff_toNat _).mp hb
        omega
    rw [hl, hr]
  · rw [toLower_fix c (by omega)]

/-- `dropWhile` is idempotent. -/
theorem dropWhile_idem (p : Char → Bool) (l : List Char) :
    (l.dropWhile p).dropWhile p = l.dropWhile p := by
  induction l with
  | nil => rfl
  | cons a t ih =>
    rw [List.dropWhile_cons]
    split
    · exact ih
    · next h => rw [List.dropWhile_cons, if_neg h]

/-- The head surviving a `dropWhile` fails the predicate. -/
theorem head_dropWhile_false (p : Char → Bool) (l : List Char) (a : Char)
    (h : (l.dropWhile p).head? = some a) : p a = false := by
  induction l with
  | nil => cases h
  | cons b t ih =>
    rw [List.dropWhile_cons] at h
    split at h
    · exact ih h
    · next hb =>
      rw [List.head?_cons, Option.some.injEq] at h
      subst h
      exact Bool.eq_false_iff.mpr hb

/-- A list whose head fails the predicate survives `dropWhile`. -/
theorem dropWhile_of_head_false (p : Char → Bool) (l : List Char)
    (h : ∀ a, l.head? = some a → p a = false) : l.dropWhile p = l := by
  cases l with
  | nil => rfl
  | cons a t =>
    rw [List.dropWhile_cons, h a (by rw [List.head?_cons])]
    simp

/-- A nonempty suffix shares its last element with the whole list. -/
theorem getLast?_of_suffix (w v : List Char) (h : w <:+ v) (hw : w ≠ []) :
    w.getLast? = v.getLast? := by
  obtain ⟨pre, rfl⟩ := h
  rw [List.getLast?_append]
  obtain ⟨x, hx⟩ := Option.isSome_iff_exists.mp (List.getLast?_isSome.mpr hw)
  rw [hx, Option.or_some]

/-- Maps that agree pointwise on a list agree on it. -/
theorem map_pointwise (f g : Char → Char) (l : List Char)
    (h : ∀ c ∈ l, f c = g c) : l.map f = l.map g := by
  induction l with
  | nil => rfl
  | cons a t ih =>
    rw [List.map_cons, List.map_cons, h a (List.mem_cons_self a t),
      ih fun c hc => h c (List.mem_cons_of_mem a hc)]

/-- Trimming is idempotent. -/
theorem jsTrim_idem (l : List Char) : jsTrim (jsTrim l) = jsTrim l := by
  unfold jsTrim
  set u := l.dropWhile isWsB with hu
  set w := u.reverse.dropWhile isWsB with hw
  have step1 : w.reverse.dropWhile isWsB = w.reverse := by
    refine dropWhile_of_head_false _ _ fun a ha => ?_
    rw [List.head?_reverse] at ha
    rcases hwnil : w with - | ⟨b, t⟩
    · rw [hwnil] at ha
      cases ha
    · have hlast : w.getLast? = u.reverse.getLast? :=
        getLast?_of_suffix w u.reverse (hw ▸ List.dropWhile_suffix isWsB)
          (by rw [hwnil]; simp)
      rw [hlast, List.getLast?_reverse] at ha
      exact head_dropWhile_false isWsB l a (hu ▸ ha)
  rw [step1, List.reverse_reverse, hw, dropWhile_idem]

/-- Trimming commutes with lowercasing. -/
theorem jsTrim_toLower_comm (l : List Char) :
    jsTrim (jsToLower l) = jsToLower (jsTrim l) := by
  have hcomp : (isWsB ∘ Char.toLower) = isWsB := funext fun c => isWs_toLower c
  unfold jsTrim jsToLower
  rw [List.dropWhile_map, hcomp, ← List.map_reverse, List.dropWhile_map, hcomp,
    ← List.map_reverse]

/-- Normalisation is idempotent: `rollDice` re-normalising the already
normalised expression handed over by the fast path is harmless. -/
theorem normChars_idem (l : List Char) : normChars (normChars l) = normChars l := by
  show normChars (jsToLower (jsTrim l)) = normChars l
  unfold normChars
  rw [jsTrim_toLower_comm, jsTrim_idem]
  show (((jsTrim l).map Char.toLower).map Char.toLower) = jsToLower (jsTrim l)
  rw [List.map_map]
  exact map_pointwise _ _ _ fun c _ => toLower_toLower c

/-- Claim C5: whenever the trimmed, lowercased expression matches the
single-term dice grammar, `evaluateDiceExpression` returns exactly the
`RollOutcome` that `rollDice` returns on the same input with the same
draws — every field agrees. -/
theorem c5_fast_path (e : List Char) (rng : ℕ → ℚ)
    (h : (parseDiceFormula (normChars e)).isSome = true) :
    evaluateDiceExpression e rng = (rollDice e rng).map EvalResult.simple := by
  have key : rollDice (normChars e) rng = rollDice e rng := by
    show (match parseDiceFormula (normChars (normChars e)) with
      | none => _
      | some req => _) = _
    rw [normChars_idem]
    rfl
  simp only [evaluateDiceExpression, if_pos h, key]

/-- Claim C5, witness: instantiated at `1d20`. -/
theorem c5_witness :
    (parseDiceFormula (normChars "1d20".data)).isSome = true ∧
    evaluateDiceExpression "1d20".data (fun _ => 0) =
      (rollDice "1d20".data (fun _ => 0)).map EvalResult.simple :=
  ⟨by decide, c5_fast_path "1d20".data (fun _ => 0) (by decide)⟩

/-! ## Claim C8 — silent skipping in the compound loop -/

/-- Claim C8 (amended): in the compound path, a term that does **not**
contain the letter `d` and fails integer parsing is silently skipped —
the loop continues with the same total, the same trace fragments, the
same draw cursor, and no error.  (A term that does contain `d` and
fails to parse is not skipped: the sub-roll error propagates, see the
counterexample.) -/
theorem c8_silent_skip (part : List Char) (rest : List (List Char)) (rng : ℕ → ℚ)
    (k : ℕ) (total : ℤ) (frags : List (List Char))
    (hd : ¬ 'd' ∈ jsTrim part)
    (hint : jsParseInt (jsTrim part) = none) :
    evalParts (part :: rest) rng k total frags = evalParts rest rng k total frags := by
  simp only [evalParts, if_neg hd, hint]

/-- Claim C8, witness: the unparseable `d`-free term `abc` is skipped
without touching the state, and a full evaluation of `5+abc` succeeds
with `abc` contributing nothing. -/
theorem c8_witness :
    (¬ 'd' ∈ jsTrim "abc".data ∧ jsParseInt (jsTrim "abc".data) = none) ∧
    evalParts ["abc".data, "+3".data] (fun _ => 0) 0 0 [] =
      evalParts ["+3".data] (fun _ => 0) 0 0 [] ∧
    evaluateDiceExpression "5+abc".data (fun _ => 0) =
      Except.ok (EvalResult.compound
        { formula := "5+ABC".data, total := 5, details := "5".data }) :=
  ⟨⟨by decide, by decide⟩,
   c8_silent_skip "abc".data ["+3".data] (fun _ => 0) 0 0 [] (by decide) (by decide),
   by decide⟩

/-- Claim C8, counterexample to the claim as stated: in `1+dd` the term
`+dd` fails to parse as a dice sub-formula or an integer, yet it is not
silently skipped — the whole evaluation raises `FormatError`, although
the other term `1` is valid. -/
theorem c8_counterexample :
    evaluateDiceExpression "1+dd".data (fun _ => 0) =
      Except.error (DiceError.formatError ("无法解析骰子公式: dd".data)) := by
  decide

/-! ## Claim C10 — the two kept-index computations agree -/

/-- Claim C10: in every successful roll with a keep mode, the kept-index
set recomputed for the `details` rendering equals the kept-index set
used to build `kept` (the source duplicates the same sort-slice
pipeline), `kept` is the index filtering of `rolls` by that set, and an
entry of the trace is rendered struck through exactly when its index is
outside the set — i.e. exactly when its value at that index is dropped
from `kept`. -/
theorem c10_details_complement (s : List Char) (rng : ℕ → ℚ) (req : RollRequest)
    (m : KeepMode) (o : RollOutcome)
    (h : parseDiceFormula (normChars s) = some req)
    (hm : req.keepMode = some m)
    (ho : rollDice s rng = Except.ok o) :
    keptIdxDetails m o.rolls req.keepCount = keptIdx m o.rolls req.keepCount ∧
    o.kept = (o.rolls.enum.filter fun p =>
        decide (p.1 ∈ keptIdx m o.rolls req.keepCount)).map Prod.snd ∧
    ∀ i, i < o.rolls.length →
      ((detailEntries req o.rolls).getD i [] =
          strike (intToChars (o.rolls.getD i 0)) ↔
        ¬ i ∈ keptIdx m o.rolls req.keepCount) := by
  obtain ⟨-, -, rfl⟩ := rollDice_ok_parsed_inv s rng req o h ho
  refine ⟨rfl, ?_, ?_⟩
  · show keptOf req (rollsOf req rng) = _
    simp only [keptOf, hm]
    rfl
  · intro i hi
    have hilen : i < (rollsOf req rng).length := hi
    have hmaplen : i < ((rollsOf req rng).enum.map fun p =>
        if p.1 ∈ keptIdxDetails m (rollsOf req rng) req.keepCount then intToChars p.2
        else strike (intToChars p.2)).length := by
      simpa [List.enum_length] using hilen
    have hentry : (detailEntries req (rollsOf req rng)).getD i [] =
        if i ∈ keptIdxDetails m (rollsOf req rng) req.keepCount then
          intToChars ((rollsOf req rng).getD i 0)
        else strike (intToChars ((rollsOf req rng).getD i 0)) := by
      simp only [detailEntries, hm]
      rw [List.getD_eq_getElem?_getD, List.getElem?_eq_getElem hmaplen]
      rw [List.getD_eq_getElem?_getD,
        List.getElem?_eq_getElem hilen]
      simp [List.getElem_map, List.getElem_enum]
    show (detailEntries req (rollsOf req rng)).getD i [] =
        strike (intToChars ((rollsOf req rng).getD i 0)) ↔
      ¬ i ∈ keptIdx m (rollsOf req rng) req.keepCount
    rw [hentry, show keptIdxDetails m (rollsOf req rng) req.keepCount =
      keptIdx m (rollsOf req rng) req.keepCount from rfl]
    by_cases hmem : i ∈ keptIdx m (rollsOf req rng) req.keepCount
    · rw [if_pos hmem]
      refine iff_of_false (fun heq => ?_) fun hn => hn hmem
      have h2 := congrArg List.length heq
      simp only [strike, List.length_cons, List.length_append] at h2
      omega
    · rw [if_neg hmem]
      exact iff_of_true rfl hmem

/-- Claim C10, witness: `2d6kh1` with mocked rolls `[6, 2]` — the `2` is
struck in the trace and absent from `kept`, the `6` is unstruck and
kept; both pipelines select index set `[0]`. -/
theorem c10_witness :
    rollDice "2d6kh1".data (fun n => [(5 : ℚ)/6, 1/6].getD n 0) = Except.ok
      { formula := "2D6KH1".data, rolls := [6, 2], kept := [6], modifier := 0,
        total := 6, details := "[6, ~~2~~] kh1".data } ∧
    (keptIdxDetails KeepMode.kh [6, 2] 1 = keptIdx KeepMode.kh [6, 2] 1 ∧
     List.map Prod.snd (([6, 2] : List ℤ).enum.filter fun p =>
        decide (p.1 ∈ keptIdx KeepMode.kh [6, 2] 1)) = [6] ∧
     ∀ i, i < ([6, 2] : List ℤ).length →
       ((detailEntries
            { count := 2, sides := 6, keepMode := some KeepMode.kh, keepCount := 1,
              modifier := 0 } [6, 2]).getD i [] =
           strike (intToChars (([6, 2] : List ℤ).getD i 0)) ↔
         ¬ i ∈ keptIdx KeepMode.kh [6, 2] 1)) := by
  have ho : rollDice "2d6kh1".data (fun n => [(5 : ℚ)/6, 1/6].getD n 0) = Except.ok
      { formula := "2D6KH1".data, rolls := [6, 2], kept := [6], modifier := 0,
        total := 6, details := "[6, ~~2~~] kh1".data } := by
    with_unfolding_all rfl
  have hres := c10_details_complement "2d6kh1".data (fun n => [(5 : ℚ)/6, 1/6].getD n 0)
    { count := 2, sides := 6, keepMode := some KeepMode.kh, keepCount := 1, modifier := 0 }
    KeepMode.kh _ (by decide) rfl ho
  exact ⟨ho, hres.1, by simpa using hres.2.1, hres.2.2⟩

/-! ## Claim C1 — keep-highest / keep-lowest selection -/

/-- Membership in the tagged list: value-index pairs of `rolls`. -/
theorem mem_tag (rolls : List ℤ) (p : ℤ × ℕ) :
    p ∈ tag rolls ↔ p.2 < rolls.length ∧ p.1 = rolls.getD p.2 0 := by
  unfold tag
  rw [List.mem_map]
  constructor
  · rintro ⟨q, hq, rfl⟩
    obtain ⟨hlt, hget⟩ := List.get?_eq_some.mp (List.mem_enum_iff_get?.mp hq)
    refine ⟨hlt, ?_⟩
    rw [List.getD_eq_getElem?_getD, List.getElem?_eq_getElem hlt]
    simp [← hget, List.get_eq_getElem]
  · rintro ⟨hlt, hval⟩
    refine ⟨(p.2, p.1), List.mem_enum_iff_get?.mpr ?_, rfl⟩
    rw [List.get?_eq_some]
    refine ⟨hlt, ?_⟩
    rw [hval, List.getD_eq_getElem?_getD, List.getElem?_eq_getElem hlt]
    simp [List.get_eq_getElem]

/-- The sorted tagged list is sorted for `keepLe`. -/
theorem sortedTagged_sorted (m : KeepMode) (rolls : List ℤ) :
    List.Sorted (keepLe m) (List.insertionSort (keepLe m) (tag rolls)) :=
  List.sorted_insertionSort (keepLe m) (tag rolls)

/-- The kept indices are pairwise distinct. -/
theorem keptIdx_nodup (m : KeepMode) (rolls : List ℤ) (k : ℕ) :
    (keptIdx m rolls k).Nodup := by
  have hperm := sortedTagged_snd_perm m rolls
  have hnodup : ((List.insertionSort (keepLe m) (tag rolls)).map Prod.snd).Nodup :=
    (List.nodup_range rolls.length).perm hperm.symm
  unfold keptIdx
  rw [List.map_take]
  exact hnodup.sublist (List.take_sublist k _)

/-- Kept indices are positions of `rolls`. -/
theorem keptIdx_lt (m : KeepMode) (rolls : List ℤ) (k : ℕ) :
    ∀ i ∈ keptIdx m rolls k, i < rolls.length := by
  intro i hi
  unfold keptIdx at hi
  rw [List.map_take] at hi
  have := (List.take_sublist k _).mem hi
  exact List.mem_range.mp ((sortedTagged_snd_perm m rolls).mem_iff.mp this)

/-- There are `min k n` kept indices. -/
theorem keptIdx_length (m : KeepMode) (rolls : List ℤ) (k : ℕ) :
    (keptIdx m rolls k).length = min k rolls.length := by
  unfold keptIdx
  rw [List.length_map, List.length_take, sortedTagged_length]

/-- A kept index appears with its value in the taken prefix. -/
theorem keptIdx_mem_take (m : KeepMode) (rolls : List ℤ) (k : ℕ) (i : ℕ)
    (hi : i ∈ keptIdx m rolls k) :
    (rolls.getD i 0, i) ∈ (List.insertionSort (keepLe m) (tag rolls)).take k := by
  unfold keptIdx at hi
  obtain ⟨a, ha, rfl⟩ := List.mem_map.mp hi
  have hmem : a ∈ tag rolls :=
    (List.perm_insertionSort (keepLe m) (tag rolls)).mem_iff.mp
      ((List.take_sublist k _).mem ha)
  obtain ⟨-, hval⟩ := (mem_tag rolls a).mp hmem
  have : a = (rolls.getD a.2 0, a.2) := Prod.ext hval rfl
  rwa [← this]

/-- Every kept index beats every dropped position in the keep order:
strictly larger value (for `kh`, smaller for `kl`), or equal value and
strictly earlier original index. -/
theorem keptIdx_beats (m : KeepMode) (rolls : List ℤ) (k : ℕ) (i j : ℕ)
    (hi : i ∈ keptIdx m rolls k) (hj : j < rolls.length)
    (hjS : ¬ j ∈ keptIdx m rolls k) :
    keepLe m (rolls.getD i 0, i) (rolls.getD j 0, j) ∧ i ≠ j := by
  have hne : i ≠ j := fun e => hjS (e ▸ hi)
  refine ⟨?_, hne⟩
  have hjmem : (rolls.getD j 0, j) ∈ List.insertionSort (keepLe m) (tag rolls) :=
    (List.perm_insertionSort (keepLe m) (tag rolls)).mem_iff.mpr
      ((mem_tag rolls _).mpr ⟨hj, rfl⟩)
  rw [← List.take_append_drop k (List.insertionSort (keepLe m) (tag rolls)),
    List.mem_append] at hjmem
  rcases hjmem with hjtake | hjdrop
  · exfalso
    apply hjS
    show j ∈ ((List.insertionSort (keepLe m) (tag rolls)).take k).map Prod.snd
    exact List.mem_map_of_mem Prod.snd hjtake
  · exact (sortedTagged_sorted m rolls).rel_of_mem_take_of_mem_drop
      (keptIdx_mem_take m rolls k i hi) hjdrop

/-- Sum of the values extracted at the positions satisfying `P`,
enumerated from `s`. -/
theorem sum_extract_from (l : List ℤ) (P : ℕ → Prop) [DecidablePred P] :
    ∀ s : ℕ, ((((l.enumFrom s).filter fun p => decide (P p.1)).map Prod.snd).sum =
      ∑ i ∈ Finset.range l.length, if P (s + i) then l.getD i 0 else 0) := by
  induction l with
  | nil => intro s; simp
  | cons a t ih =>
    intro s
    rw [show (a :: t).enumFrom s = (s, a) :: t.enumFrom (s + 1) from rfl,
      List.filter_cons]
    rw [show (a :: t).length = t.length + 1 from rfl, Finset.sum_range_succ']
    have hgd : ∀ i : ℕ, (a :: t).getD (i + 1) 0 = t.getD i 0 := fun i => rfl
    have hsum : (∑ i ∈ Finset.range t.length,
        if P (s + (i + 1)) then (a :: t).getD (i + 1) 0 else 0) =
        ∑ i ∈ Finset.range t.length, if P (s + 1 + i) then t.getD i 0 else 0 := by
      refine Finset.sum_congr rfl fun i _ => ?_
      rw [hgd i, show s + (i + 1) = s + 1 + i by omega]
    by_cases hP : P s
    · rw [if_pos (decide_eq_true hP), List.map_cons, List.sum_cons, ih (s + 1), hsum,
        show s + 0 = s by omega, if_pos hP, show (a :: t).getD 0 0 = a from rfl]
      omega
    · rw [if_neg (by simp [hP]), ih (s + 1), hsum, show s + 0 = s by omega, if_neg hP]
      omega

/-- Number of positions satisfying `P`, enumerated from `s`. -/
theorem length_extract_from (l : List ℤ) (P : ℕ → Prop) [DecidablePred P] :
    ∀ s : ℕ, ((((l.enumFrom s).filter fun p => decide (P p.1)).map Prod.snd).length =
      ∑ i ∈ Finset.range l.length, if P (s + i) then 1 else 0) := by
  induction l with
  | nil => intro s; simp
  | cons a t ih =>
    intro s
    rw [show (a :: t).enumFrom s = (s, a) :: t.enumFrom (s + 1) from rfl,
      List.filter_cons]
    rw [show (a :: t).length = t.length + 1 from rfl, Finset.sum_range_succ']
    have hsum : (∑ i ∈ Finset.range t.length, if P (s + (i + 1)) then 1 else 0) =
        ∑ i ∈ Finset.range t.length, if P (s + 1 + i) then 1 else 0 := by
      refine Finset.sum_congr rfl fun i _ => ?_
      rw [show s + (i + 1) = s + 1 + i by omega]
    by_cases hP : P s
    · rw [if_pos (decide_eq_true hP), List.map_cons, List.length_cons, ih (s + 1), hsum,
        show s + 0 = s by omega, if_pos hP]
    · rw [if_neg (by simp [hP]), ih (s + 1), hsum, show s + 0 = s by omega, if_neg hP]
      omega

/-- For a nodup index list `S` inside `range n`, the extraction at `S`
sums the values over `S.toFinset` and has `S.length` entries. -/
theorem extract_spec (l : List ℤ) (S : List ℕ) (hnd : S.Nodup)
    (hlt : ∀ i ∈ S, i < l.length) :
    (((l.enum.filter fun p => decide (p.1 ∈ S)).map Prod.snd).sum =
      ∑ i ∈ S.toFinset, l.getD i 0) ∧
    ((l.enum.filter fun p => decide (p.1 ∈ S)).map Prod.snd).length = S.length := by
  have hfil : (Finset.range l.length).filter (fun i => i ∈ S) = S.toFinset := by
    ext i
    simp only [Finset.mem_filter, Finset.mem_range, List.mem_toFinset]
    exact ⟨fun h => h.2, fun h => ⟨hlt i h, h⟩⟩
  have henum : l.enum = l.enumFrom 0 := rfl
  constructor
  · rw [henum, sum_extract_from l (fun i => i ∈ S) 0]
    simp only [Nat.zero_add]
    rw [← Finset.sum_filter, hfil]
  · rw [henum, length_extract_from l (fun i => i ∈ S) 0]
    simp only [Nat.zero_add]
    rw [← Finset.card_filter, hfil, List.toFinset_card_of_nodup hnd]

/-- If every element of `A` dominates every element of `B` and the
cards agree, the `B`-sum is at most the `A`-sum. -/
theorem sum_le_of_dominance (A B : Finset ℕ) (f : ℕ → ℤ) (hc : A.card = B.card)
    (h : ∀ a ∈ A, ∀ b ∈ B, f b ≤ f a) : ∑ b ∈ B, f b ≤ ∑ a ∈ A, f a := by
  rcases A.eq_empty_or_nonempty with rfl | hA
  · have hB : B = ∅ := Finset.card_eq_zero.mp (by rw [← hc]; simp)
    simp [hB]
  · obtain ⟨a0, ha0, hmin⟩ := A.exists_min_image f hA
    calc ∑ b ∈ B, f b ≤ ∑ _b ∈ B, f a0 := Finset.sum_le_sum fun b hb => h a0 ha0 b hb
      _ = B.card • f a0 := Finset.sum_const _
      _ = A.card • f a0 := by rw [hc]
      _ ≤ ∑ a ∈ A, f a := Finset.card_nsmul_le_sum A f (f a0) fun a ha => hmin a ha

/-- Exchange argument: a set whose members beat every outsider carries
the maximal sum among equal-card subsets. -/
theorem sum_exchange (St T : Finset ℕ) (f : ℕ → ℤ) (hcard : T.card = St.card)
    (hdom : ∀ i ∈ St, ∀ j ∈ T, j ∉ St → f j ≤ f i) :
    ∑ j ∈ T, f j ≤ ∑ i ∈ St, f i := by
  have hsplitT : ∑ j ∈ T \ St, f j + ∑ j ∈ T ∩ St, f j = ∑ j ∈ T, f j := by
    rw [← Finset.sdiff_inter_self_left T St]
    exact Finset.sum_sdiff Finset.inter_subset_left
  have hsplitS : ∑ i ∈ St \ T, f i + ∑ i ∈ St ∩ T, f i = ∑ i ∈ St, f i := by
    rw [← Finset.sdiff_inter_self_left St T]
    exact Finset.sum_sdiff Finset.inter_subset_left
  have hcT := Finset.card_sdiff_add_card_inter T St
  have hcS := Finset.card_sdiff_add_card_inter St T
  have hcinter : (T ∩ St).card = (St ∩ T).card := by rw [Finset.inter_comm]
  have hdiffcard : (St \ T).card = (T \ St).card := by omega
  have hle : ∑ j ∈ T \ St, f j ≤ ∑ i ∈ St \ T, f i := by
    refine sum_le_of_dominance (St \ T) (T \ St) f hdiffcard fun a ha b hb => ?_
    have haS := (Finset.mem_sdiff.mp ha).1
    have hbT := (Finset.mem_sdiff.mp hb).1
    have hbS := (Finset.mem_sdiff.mp hb).2
    exact hdom a haS b hbT hbS
  have hinter : ∑ j ∈ T ∩ St, f j = ∑ i ∈ St ∩ T, f i := by rw [Finset.inter_comm]
  omega

/-- A kept index tie-beats every dropped position. -/
theorem keptIdx_tieBeats (m : KeepMode) (rolls : List ℤ) (k : ℕ) (i j : ℕ)
    (hi : i ∈ keptIdx m rolls k) (hj : j < rolls.length)
    (hjS : ¬ j ∈ keptIdx m rolls k) :
    tieBeats m (rolls.getD i 0) i (rolls.getD j 0) j := by
  obtain ⟨hle, hne⟩ := keptIdx_beats m rolls k i j hi hj hjS
  cases m with
  | kh =>
    simp only [keepLe] at hle
    simp only [tieBeats]
    rcases hle with hlt | ⟨heq, hile⟩
    · exact Or.inl hlt
    · exact Or.inr ⟨heq.symm, lt_of_le_of_ne hile hne⟩
  | kl =>
    simp only [keepLe] at hle
    simp only [tieBeats]
    rcases hle with hlt | ⟨heq, hile⟩
    · exact Or.inl hlt
    · exact Or.inr ⟨heq, lt_of_le_of_ne hile hne⟩

/-- Claim C1 (amended with `keepCount ≤ count`): in every successful
roll with a keep mode and `keepCount = k ≤ count`, `kept` is a size-`k`
subsequence of `rolls`, extracted at an index set `S` in original roll
order; every index of `S` beats every dropped position — strictly
larger value for `kh` (strictly smaller for `kl`), with ties among
equal values resolved by the earlier original index — and consequently
the sum of `kept` is maximal (for `kh`) resp. minimal (for `kl`) among
all size-`k` index subsequences of `rolls`. -/
theorem c1_keep_selection (s : List Char) (rng : ℕ → ℚ) (req : RollRequest)
    (m : KeepMode) (o : RollOutcome)
    (h : parseDiceFormula (normChars s) = some req)
    (hm : req.keepMode = some m)
    (hk : req.keepCount ≤ req.count)
    (ho : rollDice s rng = Except.ok o) :
    o.kept.Sublist o.rolls ∧
    o.kept.length = req.keepCount ∧
    ∃ S : Finset ℕ, S ⊆ Finset.range o.rolls.length ∧ S.card = req.keepCount ∧
      o.kept = (o.rolls.enum.filter fun p => decide (p.1 ∈ S)).map Prod.snd ∧
      o.kept.sum = ∑ i ∈ S, o.rolls.getD i 0 ∧
      (∀ i ∈ S, ∀ j ∈ Finset.range o.rolls.length, j ∉ S →
        tieBeats m (o.rolls.getD i 0) i (o.rolls.getD j 0) j) ∧
      (∀ T ⊆ Finset.range o.rolls.length, T.card = req.keepCount →
        keepCmp m o.kept.sum (∑ j ∈ T, o.rolls.getD j 0)) := by
  obtain ⟨-, -, rfl⟩ := rollDice_ok_parsed_inv s rng req o h ho
  have hn : (rollsOf req rng).length = req.count := by simp [rollsOf]
  have hkn : req.keepCount ≤ (rollsOf req rng).length := by omega
  have hnd := keptIdx_nodup m (rollsOf req rng) req.keepCount
  have hltS := keptIdx_lt m (rollsOf req rng) req.keepCount
  have hSlen : (keptIdx m (rollsOf req rng) req.keepCount).length = req.keepCount := by
    rw [keptIdx_length]
    omega
  obtain ⟨hsum, hlength⟩ := extract_spec (rollsOf req rng) _ hnd hltS
  have hkept : (execRoll (normChars s) req rng).kept =
      ((rollsOf req rng).enum.filter fun p =>
        decide (p.1 ∈ keptIdx m (rollsOf req rng) req.keepCount)).map Prod.snd := by
    show keptOf req (rollsOf req rng) = _
    simp only [keptOf, hm]
  have hScard : (keptIdx m (rollsOf req rng) req.keepCount).toFinset.card =
      req.keepCount := by
    rw [List.toFinset_card_of_nodup hnd, hSlen]
  have hbeats : ∀ i ∈ (keptIdx m (rollsOf req rng) req.keepCount).toFinset,
      ∀ j ∈ Finset.range (rollsOf req rng).length,
      j ∉ (keptIdx m (rollsOf req rng) req.keepCount).toFinset →
      tieBeats m ((rollsOf req rng).getD i 0) i ((rollsOf req rng).getD j 0) j := by
    intro i hiS j hjR hjS
    exact keptIdx_tieBeats m (rollsOf req rng) req.keepCount i j
      (List.mem_toFinset.mp hiS) (Finset.mem_range.mp hjR)
      (fun hj => hjS (List.mem_toFinset.mpr hj))
  refine ⟨?_, ?_, (keptIdx m (rollsOf req rng) req.keepCount).toFinset, ?_, hScard,
    ?_, ?_, hbeats, ?_⟩
  · show (execRoll (normChars s) req rng).kept.Sublist (rollsOf req rng)
    rw [hkept]
    have h1 := (List.filter_sublist (p := fun p =>
      decide (p.1 ∈ keptIdx m (rollsOf req rng) req.keepCount))
      ((rollsOf req rng).enum)).map Prod.snd
    rwa [List.enum_map_snd] at h1
  · show (execRoll (normChars s) req rng).kept.length = req.keepCount
    rw [hkept, hlength, hSlen]
  · intro i hi
    exact Finset.mem_range.mpr (hltS i (List.mem_toFinset.mp hi))
  · show (execRoll (normChars s) req rng).kept =
      ((rollsOf req rng).enum.filter fun p =>
        decide (p.1 ∈ (keptIdx m (rollsOf req rng) req.keepCount).toFinset)).map Prod.snd
    rw [hkept]
    exact congrArg (List.map Prod.snd) (List.filter_congr fun p _ => by
      simp [List.mem_toFinset])
  · show (execRoll (normChars s) req rng).kept.sum = _
    rw [hkept, hsum]
    rfl
  · intro T hT hTcard
    have hcards : T.card =
        (keptIdx m (rollsOf req rng) req.keepCount).toFinset.card := by
      rw [hScard, hTcard]
    have hksum : (execRoll (normChars s) req rng).kept.sum =
        ∑ i ∈ (keptIdx m (rollsOf req rng) req.keepCount).toFinset,
          (rollsOf req rng).getD i 0 := by
      rw [hkept, hsum]
    cases m with
    | kh =>
      show (∑ j ∈ T, (rollsOf req rng).getD j 0) ≤
        (execRoll (normChars s) req rng).kept.sum
      rw [hksum]
      refine sum_exchange _ T _ hcards fun i hiS j hjT hjS => ?_
      have hb := hbeats i hiS j (hT hjT) hjS
      simp only [tieBeats] at hb
      rcases hb with hlt | ⟨heq, -⟩
      · exact le_of_lt hlt
      · exact le_of_eq heq
    | kl =>
      show (execRoll (normChars s) req rng).kept.sum ≤
        ∑ j ∈ T, (rollsOf req rng).getD j 0
      rw [hksum]
      have hneg := sum_exchange _ T (fun i => -(rollsOf req rng).getD i 0) hcards
        (fun i hiS j hjT hjS => by
          have hb := hbeats i hiS j (hT hjT) hjS
          simp only [tieBeats] at hb
          show -(rollsOf req rng).getD j 0 ≤ -(rollsOf req rng).getD i 0
          rcases hb with hlt | ⟨heq, -⟩
          · omega
          · omega)
      simp only [Finset.sum_neg_distrib] at hneg
      omega

/-- Claim C1, witness: `4d6kh3` with mocked rolls `[6, 2, 5, 4]` keeps
`[6, 5, 4]` (indices 0, 2, 3) in original roll order with total 15, and
the selection properties hold at this instance. -/
theorem c1_witness :
    rollDice "4d6kh3".data (fun n => [(5 : ℚ)/6, 1/6, 2/3, 1/2].getD n 0) = Except.ok
      { formula := "4D6KH3".data, rolls := [6, 2, 5, 4], kept := [6, 5, 4], modifier := 0,
        total := 15, details := "[6, ~~2~~, 5, 4] kh3".data } ∧
    ([6, 5, 4] : List ℤ).Sublist [6, 2, 5, 4] ∧
    ([6, 5, 4] : List ℤ).length = 3 ∧
    (∃ S : Finset ℕ, S ⊆ Finset.range ([6, 2, 5, 4] : List ℤ).length ∧ S.card = 3 ∧
      ([6, 5, 4] : List ℤ) = (([6, 2, 5, 4] : List ℤ).enum.filter fun p =>
        decide (p.1 ∈ S)).map Prod.snd ∧
      ([6, 5, 4] : List ℤ).sum = ∑ i ∈ S, ([6, 2, 5, 4] : List ℤ).getD i 0 ∧
      (∀ i ∈ S, ∀ j ∈ Finset.range ([6, 2, 5, 4] : List ℤ).length, j ∉ S →
        tieBeats KeepMode.kh (([6, 2, 5, 4] : List ℤ).getD i 0) i
          (([6, 2, 5, 4] : List ℤ).getD j 0) j) ∧
      (∀ T ⊆ Finset.range ([6, 2, 5, 4] : List ℤ).length, T.card = 3 →
        keepCmp KeepMode.kh ([6, 5, 4] : List ℤ).sum
          (∑ j ∈ T, ([6, 2, 5, 4] : List ℤ).getD j 0))) := by
  have ho : rollDice "4d6kh3".data (fun n => [(5 : ℚ)/6, 1/6, 2/3, 1/2].getD n 0) =
      Except.ok
        { formula := "4D6KH3".data, rolls := [6, 2, 5, 4], kept := [6, 5, 4],
          modifier := 0, total := 15, details := "[6, ~~2~~, 5, 4] kh3".data } := by
    with_unfolding_all rfl
  have hres := c1_keep_selection "4d6kh3".data
    (fun n => [(5 : ℚ)/6, 1/6, 2/3, 1/2].getD n 0)
    { count := 4, sides := 6, keepMode := some KeepMode.kh, keepCount := 3, modifier := 0 }
    KeepMode.kh _ (by decide) rfl (by decide) ho
  exact ⟨ho, hres.1, hres.2.1, hres.2.2⟩

/-- Claim C1, counterexample to the claim as stated: `1d6kh2` is a
successful roll with keep mode `kh` and `keepCount = 2`, yet `kept` has
length 1, not 2 — when `keepCount` exceeds `count` the engine keeps all
dice rather than a size-`keepCount` subsequence. -/
theorem c1_counterexample :
    parseDiceFormula (normChars "1d6kh2".data) =
      some { count := 1, sides := 6, keepMode := some KeepMode.kh, keepCount := 2,
             modifier := 0 } ∧
    rollDice "1d6kh2".data (fun _ => 0) = Except.ok
      { formula := "1D6KH2".data, rolls := [1], kept := [1], modifier := 0,
        total := 1, details := "[1] kh2".data } ∧
    ([1] : List ℤ).length ≠ 2 := by
  refine ⟨by decide, by with_unfolding_all rfl, by decide⟩

end Dice
